import Mathlib

/-!
Verification of the qatsi derivation-and-sampling pipeline.

This file gives a shallow embedding of the core of the program:
hierarchical Argon2id key derivation with Blake2b-512 salt normalization
(`src/kdf.rs`), and deterministic rejection sampling of mnemonic words and
password characters from a ChaCha20 keystream (`src/generator.rs`).

Bytes are modelled as `Nat` values below 256, byte strings as `List Nat`.
The external crypto primitives are handled as follows:

* ChaCha20 (the `chacha20` crate, RFC 8439, 96-bit all-zero nonce, 32-bit
  block counter starting at 0) is implemented concretely; the model was
  checked against the standard zero-key keystream test vector.
* Blake2b-512 (the `blake2` crate, RFC 7693, unkeyed, 64-byte digest) is
  implemented concretely; the model was checked against the RFC test
  vectors for the empty message and for "abc".
* Argon2id is a memory-hard function whose evaluation is far outside the
  reach of a shallow embedding; it is kept abstract as a function
  parameter `Hfam : Argon2Fn` taking the algorithm/version/parameter
  instance and the password and salt inputs.  Likewise the parameter
  validation performed by `argon2::Params::new` is abstracted as a
  predicate on configurations.
* The EFF wordlist asset is not part of the sources; the word table is a
  parameter `wl : List String` whose length 7776 is asserted by
  `get_wordlist` in `src/wordlist.rs`.

Rust `Result` values are modelled with `Except`, panics (out-of-bounds
indexing) as an explicit error outcome, and the unbounded sampling loops
take an explicit fuel argument counting loop iterations.
-/

set_option maxRecDepth 8000

/-! ## Machine arithmetic helpers -/

/-- Modulus for 32-bit words. -/
def M32 : Nat := 4294967296

/-- Modulus for 64-bit words. -/
def M64 : Nat := 18446744073709551616

/-- Wrapping 32-bit addition. -/
def add32 (a b : Nat) : Nat := (a + b) % M32

/-- Left rotation of a 32-bit word. -/
def rotl32 (x n : Nat) : Nat := ((x <<< n) % M32) ||| (x >>> (32 - n))

/-- Wrapping 64-bit addition. -/
def add64 (a b : Nat) : Nat := (a + b) % M64

/-- Right rotation of a 64-bit word. -/
def ror64 (x n : Nat) : Nat := (x >>> n) ||| ((x <<< (64 - n)) % M64)

/-! ## ChaCha20 (the `chacha20` crate as used by `src/generator.rs`) -/

/-- The ChaCha20 quarter round acting on positions `a b c d` of the state. -/
def chachaQR (s : List Nat) (a b c d : Nat) : List Nat :=
  let sa := add32 (s.getD a 0) (s.getD b 0)
  let sd := rotl32 ((s.getD d 0) ^^^ sa) 16
  let sc := add32 (s.getD c 0) sd
  let sb := rotl32 ((s.getD b 0) ^^^ sc) 12
  let sa2 := add32 sa sb
  let sd2 := rotl32 (sd ^^^ sa2) 8
  let sc2 := add32 sc sd2
  let sb2 := rotl32 (sb ^^^ sc2) 7
  ((((s.set a sa2).set b sb2).set c sc2).set d sd2)

/-- One ChaCha20 double round: four column rounds then four diagonal rounds. -/
def chachaDoubleRound (s : List Nat) : List Nat :=
  let s1 := chachaQR (chachaQR (chachaQR (chachaQR s 0 4 8 12) 1 5 9 13) 2 6 10 14) 3 7 11 15
  chachaQR (chachaQR (chachaQR (chachaQR s1 0 5 10 15) 1 6 11 12) 2 7 8 13) 3 4 9 14

/-- Iterated double rounds. -/
def chachaRounds : Nat → List Nat → List Nat
  | 0, s => s
  | n + 1, s => chachaRounds n (chachaDoubleRound s)

/-- Read a little-endian 32-bit word from a byte list at offset `o`. -/
def word32le (bs : List Nat) (o : Nat) : Nat :=
  bs.getD o 0 + 256 * bs.getD (o + 1) 0 + 65536 * bs.getD (o + 2) 0 + 16777216 * bs.getD (o + 3) 0

/-- Initial ChaCha20 state for a 32-byte key, the fixed all-zero 96-bit nonce
used by the program, and a block counter. -/
def chachaInit (key : List Nat) (counter : Nat) : List Nat :=
  [0x61707865, 0x3320646e, 0x79622d32, 0x6b206574] ++
    (List.range 8).map (fun i => word32le key (4 * i)) ++ [counter % M32, 0, 0, 0]

/-- The 64-byte ChaCha20 keystream block with the given counter. -/
def chachaBlock (key : List Nat) (counter : Nat) : List Nat :=
  let s0 := chachaInit key counter
  let s := chachaRounds 10 s0
  let out := List.zipWith add32 s s0
  (List.range 64).map (fun i => out.getD (i / 4) 0 / 256 ^ (i % 4) % 256)

/-- Byte `i` of the ChaCha20 keystream for `key` under the all-zero nonce,
with the block counter starting at 0 as in `ChaCha20::new`. -/
def chachaKeystream (key : List Nat) (i : Nat) : Nat :=
  (chachaBlock key (i / 64)).getD (i % 64) 0

/-! ## Blake2b-512 (the `blake2` crate as used by `src/kdf.rs`) -/

/-- Blake2b initialization vector. -/
def blakeIV : List Nat :=
  [0x6a09e667f3bcc908, 0xbb67ae8584caa73b, 0x3c6ef372fe94f82b, 0xa54ff53a5f1d36f1,
   0x510e527fade682d1, 0x9b05688c2b3e6c1f, 0x1f83d9abfb41bd6b, 0x5be0cd19137e2179]

/-- Blake2b message schedule permutations. -/
def blakeSigma : List (List Nat) :=
  [[0, 1, 2, 3, 4, 5, 6, 7, 8, 9, 10, 11, 12, 13, 14, 15],
   [14, 10, 4, 8, 9, 15, 13, 6, 1, 12, 0, 2, 11, 7, 5, 3],
   [11, 8, 12, 0, 5, 2, 15, 13, 10, 14, 3, 6, 7, 1, 9, 4],
   [7, 9, 3, 1, 13, 12, 11, 14, 2, 6, 5, 10, 4, 0, 15, 8],
   [9, 0, 5, 7, 2, 4, 10, 15, 14, 1, 11, 12, 6, 8, 3, 13],
   [2, 12, 6, 10, 0, 11, 8, 3, 4, 13, 7, 5, 15, 14, 1, 9],
   [12, 5, 1, 15, 14, 13, 4, 10, 0, 7, 6, 3, 9, 2, 8, 11],
   [13, 11, 7, 14, 12, 1, 3, 9, 5, 0, 15, 4, 8, 6, 2, 10],
   [6, 15, 14, 9, 11, 3, 0, 8, 12, 2, 13, 7, 1, 4, 10, 5],
   [10, 2, 8, 4, 7, 6, 1, 5, 15, 11, 9, 14, 3, 12, 13, 0]]

/-- The Blake2b mixing function G. -/
def blakeG (v : List Nat) (a b c d x y : Nat) : List Nat :=
  let va := add64 (add64 (v.getD a 0) (v.getD b 0)) x
  let vd := ror64 ((v.getD d 0) ^^^ va) 32
  let vc := add64 (v.getD c 0) vd
  let vb := ror64 ((v.getD b 0) ^^^ vc) 24
  let va2 := add64 (add64 va vb) y
  let vd2 := ror64 (vd ^^^ va2) 16
  let vc2 := add64 vc vd2
  let vb2 := ror64 (vb ^^^ vc2) 63
  ((((v.set a va2).set b vb2).set c vc2).set d vd2)

/-- One Blake2b round over the work vector using message words `m`. -/
def blakeRound (m : List Nat) (v : List Nat) (i : Nat) : List Nat :=
  let s := blakeSigma.getD (i % 10) []
  let mg := fun k => m.getD (s.getD k 0) 0
  blakeG (blakeG (blakeG (blakeG (blakeG (blakeG (blakeG (blakeG v
    0 4 8 12 (mg 0) (mg 1)) 1 5 9 13 (mg 2) (mg 3)) 2 6 10 14 (mg 4) (mg 5))
    3 7 11 15 (mg 6) (mg 7)) 0 5 10 15 (mg 8) (mg 9)) 1 6 11 12 (mg 10) (mg 11))
    2 7 8 13 (mg 12) (mg 13)) 3 4 9 14 (mg 14) (mg 15)

/-- Read a little-endian 64-bit word from a byte list at offset `o`. -/
def word64le (bs : List Nat) (o : Nat) : Nat :=
  (List.range 8).foldr (fun k acc => acc * 256 + bs.getD (o + k) 0) 0

/-- The Blake2b compression function. -/
def blakeCompress (h : List Nat) (block : List Nat) (t : Nat) (last : Bool) : List Nat :=
  let m := (List.range 16).map (fun k => word64le block (8 * k))
  let v0 := h ++ blakeIV
  let v1 := v0.set 12 ((v0.getD 12 0) ^^^ (t % M64))
  let v2 := v1.set 13 ((v1.getD 13 0) ^^^ (t / M64 % M64))
  let v3 := if last then v2.set 14 ((v2.getD 14 0) ^^^ (M64 - 1)) else v2
  let vf := (List.range 12).foldl (fun v i => blakeRound m v i) v3
  (List.range 8).map (fun i => (h.getD i 0) ^^^ ((vf.getD i 0) ^^^ (vf.getD (i + 8) 0)))

/-- Zero-pad a final message block to 128 bytes. -/
def blakePad (bs : List Nat) : List Nat := bs ++ List.replicate (128 - bs.length) 0

/-- Process the message 128 bytes at a time; the fuel argument is an upper
bound on the number of full blocks and is instantiated with the message
length. -/
def blakeLoop : Nat → List Nat → Nat → List Nat → List Nat
  | 0, h, done, rest => blakeCompress h (blakePad rest) (done + rest.length) true
  | fuel + 1, h, done, rest =>
    if rest.length ≤ 128 then blakeCompress h (blakePad rest) (done + rest.length) true
    else blakeLoop fuel (blakeCompress h (rest.take 128) (done + 128) false) (done + 128)
      (rest.drop 128)

/-- Blake2b-512 digest (unkeyed, 64-byte output) of a byte sequence. -/
def blake2b512 (bs : List Nat) : List Nat :=
  let h0 := blakeIV.set 0 ((blakeIV.getD 0 0) ^^^ 0x01010040)
  let hf := blakeLoop bs.length h0 0 bs
  (List.range 64).map (fun i => hf.getD (i / 8) 0 / 256 ^ (i % 8) % 256)

/-! ## Key derivation (`src/kdf.rs`) -/

/-- Argon2 algorithm selector (`argon2::Algorithm`). -/
inductive Argon2Algorithm
  | Argon2d
  | Argon2i
  | Argon2id
deriving DecidableEq

/-- Argon2 version selector (`argon2::Version`). -/
inductive Argon2Version
  | V0x10
  | V0x13
deriving DecidableEq

/-- Argon2 cost configuration (`kdf::Argon2Config`). -/
structure Argon2Config where
  memory_kib : Nat
  iterations : Nat
  parallelism : Nat
deriving DecidableEq

/-- The `STANDARD` preset. -/
def Argon2Config.STANDARD : Argon2Config :=
  { memory_kib := 64 * 1024, iterations := 16, parallelism := 6 }

/-- The `PARANOID` preset. -/
def Argon2Config.PARANOID : Argon2Config :=
  { memory_kib := 128 * 1024, iterations := 32, parallelism := 6 }

/-- The fixed derived-key length `OUTPUT_LEN`. -/
def OUTPUT_LEN : Nat := 32

/-- The minimum raw salt length `MIN_SALT_LEN`. -/
def MIN_SALT_LEN : Nat := 16

/-- A fully parameterized Argon2 instance as built by `Argon2::new`. -/
structure Argon2Instance where
  algorithm : Argon2Algorithm
  version : Argon2Version
  cfg : Argon2Config
deriving DecidableEq

/-- Abstract interface of `Argon2::hash_password_into`: an instance, a
password and a salt give either a derived key or a failure.  The Argon2id
computation itself is outside the embedding; every theorem quantifies over
this function. -/
def Argon2Fn : Type :=
  Argon2Instance → List Nat → List Nat → Except Unit (List Nat)

/-- Structured error outcomes of `derive_hierarchical`, one per `anyhow`
context produced in `src/kdf.rs`. -/
inductive KdfError
  | emptyLayers
  | invalidParams
  | deriveMaster
  | deriveLayer (idx : Nat)
deriving DecidableEq

/-- The context message attached to each error outcome in `src/kdf.rs`. -/
def KdfError.message : KdfError → String
  | .emptyLayers => "Layers array cannot be empty"
  | .invalidParams => "Failed to create Argon2 parameters"
  | .deriveMaster => "Failed to derive key from master secret"
  | .deriveLayer j => "Failed to derive key at layer " ++ toString j

/-- Salt normalization as performed inside `derive_single`: a layer of at
least `MIN_SALT_LEN` bytes is used raw, shorter layers are replaced by
their full Blake2b-512 digest. -/
def normalizeSalt (salt_input : List Nat) : List Nat :=
  if salt_input.length ≥ MIN_SALT_LEN then salt_input else blake2b512 salt_input

/-- One derivation stage (`derive_single`): run the Argon2 instance `H` on
the password and the normalized salt. -/
def derive_single (H : List Nat → List Nat → Except Unit (List Nat))
    (password salt_input : List Nat) : Except Unit (List Nat) :=
  H password (normalizeSalt salt_input)

/-- The loop over `layers[1..]` in `derive_hierarchical`; `j` is the 1-based
layer number used in the `"Failed to derive key at layer "` context, which
starts at 2 for the first iterated layer. -/
def deriveLoop (H : List Nat → List Nat → Except Unit (List Nat)) :
    List Nat → List (List Nat) → Nat → Except KdfError (List Nat)
  | cur, [], _ => Except.ok cur
  | cur, l :: ls, j =>
    match derive_single H cur l with
    | Except.ok nk => deriveLoop H nk ls (j + 1)
    | Except.error _ => Except.error (KdfError.deriveLayer j)

/-- The hierarchical key derivation `derive_hierarchical`, parameterized by
the abstract Argon2 family `Hfam` and by the abstract `Params::new`
validity predicate `paramsValid`. -/
def derive_hierarchical (Hfam : Argon2Fn) (paramsValid : Argon2Config → Bool)
    (master_secret : List Nat) (layers : List (List Nat)) (config : Argon2Config) :
    Except KdfError (List Nat) :=
  match layers with
  | [] => Except.error KdfError.emptyLayers
  | l0 :: rest =>
    if paramsValid config then
      let argon2 := Argon2Instance.mk Argon2Algorithm.Argon2id Argon2Version.V0x13 config
      match derive_single (Hfam argon2) master_secret l0 with
      | Except.ok k1 => deriveLoop (Hfam argon2) k1 rest 2
      | Except.error _ => Except.error KdfError.deriveMaster
    else Except.error KdfError.invalidParams

/-- Modelled from the spec: the derivation chain of section 4.2, folding the
remaining layers over the stage-1 key, each stage using the previous key as
password and the normalized current layer as salt. -/
def specChainFold (H : List Nat → List Nat → Except Unit (List Nat))
    (k : List Nat) : List (List Nat) → Except Unit (List Nat)
  | [] => Except.ok k
  | l :: ls =>
    match H k (normalizeSalt l) with
    | Except.ok k2 => specChainFold H k2 ls
    | Except.error e => Except.error e

/-- Modelled from the spec: the full chain, with the master secret as the
stage-1 password salted by the first layer. -/
def specChain (H : List Nat → List Nat → Except Unit (List Nat))
    (master : List Nat) (layers : List (List Nat)) : Except Unit (List Nat) :=
  match layers with
  | [] => Except.error ()
  | l0 :: rest =>
    match H master (normalizeSalt l0) with
    | Except.ok k1 => specChainFold H k1 rest
    | Except.error e => Except.error e

/-- The 0-based position of the first failing stage when chaining `H` from
key `k` through the given layers, if any stage fails. -/
def failsAt (H : List Nat → List Nat → Except Unit (List Nat))
    (k : List Nat) : List (List Nat) → Option Nat
  | [] => none
  | l :: ls =>
    match derive_single H k l with
    | Except.ok k2 => (failsAt H k2 ls).map (· + 1)
    | Except.error _ => some 0

/-! ## Symbol generation (`src/generator.rs`) -/

/-- The fixed word count asserted by `src/wordlist.rs` (`wordlist_size`). -/
def wordlist_size : Nat := 7776

/-- The rejection threshold computed in `generate_mnemonic`:
`max_multiple = 65536 / wordlist_len` in `u32`, then
`(max_multiple * wordlist_len) as u16`. -/
def mnemonicRejectionThreshold : Nat := (65536 / wordlist_size * wordlist_size) % 65536

/-- The byte values of the fixed 90-character `ALPHABET` of
`src/generator.rs`, in order. -/
def ALPHABET : List Nat :=
  [65, 66, 67, 68, 69, 70, 71, 72, 73, 74, 75, 76, 77, 78, 79, 80, 81, 82, 83, 84,
   85, 86, 87, 88, 89, 90,
   97, 98, 99, 100, 101, 102, 103, 104, 105, 106, 107, 108, 109, 110, 111, 112,
   113, 114, 115, 116, 117, 118, 119, 120, 121, 122,
   48, 49, 50, 51, 52, 53, 54, 55, 56, 57,
   33, 64, 35, 36, 37, 94, 38, 42, 40, 41, 95, 43, 45, 61, 91, 93, 123, 125, 124,
   59, 58, 44, 46, 60, 62, 63, 47, 126]

/-- The rejection threshold computed in `generate_password`:
`256 - (256 % alphabet_size)`. -/
def passwordRejectionThreshold : Nat := 256 - 256 % ALPHABET.length

/-- The next `len` bytes of keystream `K` starting at stream position
`start`. -/
def ksChunk (K : Nat → Nat) (start len : Nat) : List Nat :=
  (List.range len).map (fun j => K (start + j))

/-- Model of `cipher.apply_keystream(&mut buffer)`: the next chunk of the
keystream is XORed into the buffer in place (the `StreamCipher` trait
encrypts the buffer, it does not overwrite it). -/
def applyKeystream (K : Nat → Nat) (spos : Nat) (buf : List Nat) : List Nat :=
  List.zipWith Nat.xor buf (ksChunk K spos buf.length)

/-- The sampling loop of `generate_mnemonic`.  Arguments: fuel (number of
remaining loop iterations, each iteration reading one 16-bit draw), the
keystream position of the cipher, the working buffer, the read cursor
`pos`, and the accumulated words.  `none` models running out of fuel,
`Except.error` models the out-of-bounds indexing panic `wordlist[index]`. -/
def mnemLoop (K : Nat → Nat) (wl : List String) (word_count : Nat) :
    Nat → Nat → List Nat → Nat → List String → Option (Except Unit (List String))
  | 0, _, _, _, words => if word_count ≤ words.length then some (Except.ok words) else none
  | fuel + 1, spos, buf, pos, words =>
    if word_count ≤ words.length then some (Except.ok words)
    else if pos + 1 ≥ buf.length then
      let buf2 := applyKeystream K spos buf
      let v := buf2.getD 0 0 + 256 * buf2.getD 1 0
      if v < mnemonicRejectionThreshold then
        match wl.get? (v % wordlist_size) with
        | some w => mnemLoop K wl word_count fuel (spos + buf.length) buf2 2 (words ++ [w])
        | none => some (Except.error ())
      else mnemLoop K wl word_count fuel (spos + buf.length) buf2 2 words
    else
      let v := buf.getD pos 0 + 256 * buf.getD (pos + 1) 0
      if v < mnemonicRejectionThreshold then
        match wl.get? (v % wordlist_size) with
        | some w => mnemLoop K wl word_count fuel spos buf (pos + 2) (words ++ [w])
        | none => some (Except.error ())
      else mnemLoop K wl word_count fuel spos buf (pos + 2) words

/-- `generate_mnemonic`: key the cipher, fill a 512-byte buffer once, run
the rejection-sampling loop, and join the collected words with single
hyphens. -/
def generate_mnemonic (key : List Nat) (wl : List String) (word_count fuel : Nat) :
    Option (Except Unit String) :=
  let K := chachaKeystream key
  let buf := applyKeystream K 0 (List.replicate 512 0)
  match mnemLoop K wl word_count fuel 512 buf 0 [] with
  | some (Except.ok ws) => some (Except.ok (String.intercalate "-" ws))
  | some (Except.error e) => some (Except.error e)
  | none => none

/-- The sampling loop of `generate_password`, one byte per draw.  The
refill condition is `pos >= buffer.len()` and the buffer holds 1024
bytes. -/
def pwLoop (K : Nat → Nat) (password_length : Nat) :
    Nat → Nat → List Nat → Nat → List Nat → Option (Except Unit (List Nat))
  | 0, _, _, _, acc => if password_length ≤ acc.length then some (Except.ok acc) else none
  | fuel + 1, spos, buf, pos, acc =>
    if password_length ≤ acc.length then some (Except.ok acc)
    else if pos ≥ buf.length then
      let buf2 := applyKeystream K spos buf
      let b := buf2.getD 0 0
      if b < passwordRejectionThreshold then
        match ALPHABET.get? (b % ALPHABET.length) with
        | some c => pwLoop K password_length fuel (spos + buf.length) buf2 1 (acc ++ [c])
        | none => some (Except.error ())
      else pwLoop K password_length fuel (spos + buf.length) buf2 1 acc
    else
      let b := buf.getD pos 0
      if b < passwordRejectionThreshold then
        match ALPHABET.get? (b % ALPHABET.length) with
        | some c => pwLoop K password_length fuel spos buf (pos + 1) (acc ++ [c])
        | none => some (Except.error ())
      else pwLoop K password_length fuel spos buf (pos + 1) acc

/-- Leniently modelled UTF-8 validation with fuel (instantiated with the
list length); mirrors the byte-range rules `String::from_utf8` enforces.
Only the ASCII branch is ever exercised by the program, and only that
branch is relied on by any theorem below. -/
def utf8ValidFuel : Nat → List Nat → Bool
  | _, [] => true
  | 0, _ :: _ => false
  | fuel + 1, b :: bs =>
    if b < 128 then utf8ValidFuel fuel bs
    else if b < 194 then false
    else if b < 224 then
      match bs with
      | b1 :: rest => decide (128 ≤ b1 ∧ b1 < 192) && utf8ValidFuel fuel rest
      | [] => false
    else if b < 240 then
      match bs with
      | b1 :: b2 :: rest =>
        (if b = 224 then decide (160 ≤ b1 ∧ b1 < 192)
         else if b = 237 then decide (128 ≤ b1 ∧ b1 < 160)
         else decide (128 ≤ b1 ∧ b1 < 192)) &&
          decide (128 ≤ b2 ∧ b2 < 192) && utf8ValidFuel fuel rest
      | _ => false
    else if b < 245 then
      match bs with
      | b1 :: b2 :: b3 :: rest =>
        (if b = 240 then decide (144 ≤ b1 ∧ b1 < 192)
         else if b = 244 then decide (128 ≤ b1 ∧ b1 < 144)
         else decide (128 ≤ b1 ∧ b1 < 192)) &&
          decide (128 ≤ b2 ∧ b2 < 192) && decide (128 ≤ b3 ∧ b3 < 192) &&
          utf8ValidFuel fuel rest
      | _ => false
    else false

/-- UTF-8 validity of a byte list. -/
def utf8Valid (bs : List Nat) : Bool := utf8ValidFuel bs.length bs

/-- Model of `String::from_utf8` on the byte lists the program builds:
validate, then decode (byte-wise, which agrees with UTF-8 on the ASCII
outputs the program is proved to produce). -/
def rustFromUtf8 (bs : List Nat) : Except Unit String :=
  if utf8Valid bs then Except.ok (String.mk (bs.map (fun b => Char.ofNat b)))
  else Except.error ()

/-- `generate_password`: key the cipher, fill a 1024-byte buffer once, run
the loop, and convert the collected bytes to a string. -/
def generate_password (key : List Nat) (password_length fuel : Nat) :
    Option (Except Unit String) :=
  let K := chachaKeystream key
  let buf := applyKeystream K 0 (List.replicate 1024 0)
  match pwLoop K password_length fuel 1024 buf 0 [] with
  | some (Except.ok bs) => some (rustFromUtf8 bs)
  | some (Except.error e) => some (Except.error e)
  | none => none

/-! ## The stream actually consumed by the loops

Because `apply_keystream` XORs into the previous buffer contents, the byte
at overall read position `p` is the XOR of the keystream bytes at offset
`p % B` of every chunk produced so far, not the raw keystream byte `p`. -/

/-- XOR of the keystream bytes at offset `o` of the first `f` chunks of
size `B`. -/
def xorUpTo (K : Nat → Nat) (B o : Nat) : Nat → Nat
  | 0 => 0
  | f + 1 => Nat.xor (xorUpTo K B o f) (K (f * B + o))

/-- The byte at read position `p` of the stream the buffered loops consume
when the working buffer holds `B` bytes. -/
def consumedByte (K : Nat → Nat) (B p : Nat) : Nat :=
  xorUpTo K B (p % B) (p / B + 1)

/-- The buffer contents after `f` fills. -/
def bufferAt (K : Nat → Nat) (B f : Nat) : List Nat :=
  (List.range B).map (fun o => xorUpTo K B o f)

/-! ## Spec-side samplers (section 4.4 of the spec) -/

/-- Modelled from the spec: word sampling — read little-endian 16-bit
draws from the byte stream `S`, accept `v` exactly when `v < 62208`,
emitting the word at index `v mod 7776`, until `n` words are collected.
`d` counts draws made so far; the fuel bounds the number of draws. -/
def specWords (S : Nat → Nat) (wl : List String) : Nat → Nat → Nat → Option (List String)
  | _, 0, _ => some []
  | 0, _ + 1, _ => none
  | fuel + 1, n + 1, d =>
    let v := S (2 * d) + 256 * S (2 * d + 1)
    if v < 62208 then
      (specWords S wl fuel n (d + 1)).map (fun ws => wl.getD (v % 7776) "" :: ws)
    else specWords S wl fuel (n + 1) (d + 1)

/-- Modelled from the spec: character sampling — read single-byte draws
from `S`, accept `b` exactly when `b < 180`, emitting the alphabet byte at
index `b mod 90`, until `n` bytes are collected. -/
def specChars (S : Nat → Nat) : Nat → Nat → Nat → Option (List Nat)
  | _, 0, _ => some []
  | 0, _ + 1, _ => none
  | fuel + 1, n + 1, d =>
    let b := S d
    if b < 180 then
      (specChars S fuel n (d + 1)).map (fun bs => ALPHABET.getD (b % 90) 0 :: bs)
    else specChars S fuel (n + 1) (d + 1)

/-! ## Buffer mechanics -/

theorem get?_eq_some_getD {α : Type} (l : List α) (n : Nat) (d : α) (h : n < l.length) :
    l.get? n = some (l.getD n d) := by
  induction l generalizing n with
  | nil => simp at h
  | cons a l ih =>
    cases n with
    | zero => rfl
    | succ n => simpa using ih n (by simpa using h)

theorem zipWith_map_same {α β γ δ : Type} (f : β → γ → δ) (g : α → β) (h : α → γ)
    (l : List α) : List.zipWith f (l.map g) (l.map h) = l.map (fun x => f (g x) (h x)) := by
  induction l with
  | nil => rfl
  | cons a l ih => simp [ih]

theorem length_bufferAt (K : Nat → Nat) (B f : Nat) : (bufferAt K B f).length = B := by
  simp [bufferAt]

theorem getD_bufferAt (K : Nat → Nat) (B f o : Nat) (h : o < B) :
    (bufferAt K B f).getD o 0 = xorUpTo K B o f := by
  rw [bufferAt, List.getD_eq_get?, List.get?_map, List.get?_range h]
  rfl

theorem applyKeystream_bufferAt (K : Nat → Nat) (B f : Nat) :
    applyKeystream K (f * B) (bufferAt K B f) = bufferAt K B (f + 1) := by
  rw [applyKeystream, length_bufferAt, bufferAt, ksChunk, zipWith_map_same]
  rfl

theorem applyKeystream_replicate (K : Nat → Nat) (B : Nat) :
    applyKeystream K 0 (List.replicate B 0) = bufferAt K B 1 := by
  rw [applyKeystream, List.length_replicate, ksChunk]
  have hrep : List.replicate B (0 : Nat) = (List.range B).map (fun _ => 0) := by
    simp [List.map_const]
  rw [hrep, zipWith_map_same, bufferAt]
  refine List.map_congr_left fun o ho => ?_
  simp [xorUpTo]

/-! ## Loop refinement: the buffered loops sample the consumed stream -/

theorem mnemLoop_eq_specWords (K : Nat → Nat) (wl : List String) (hwl : wl.length = 7776)
    (need : Nat) :
    ∀ fuel f d words, 0 < f → (f - 1) * 512 ≤ 2 * d → 2 * d ≤ f * 512 →
      mnemLoop K wl need fuel (f * 512) (bufferAt K 512 f) (2 * d - (f - 1) * 512) words =
        (specWords (consumedByte K 512) wl fuel (need - words.length) d).map
          (fun ws => Except.ok (words ++ ws)) := by
  intro fuel
  induction fuel with
  | zero =>
    intro f d words _ _ _
    by_cases hdone : need ≤ words.length
    · rw [Nat.sub_eq_zero_of_le hdone]
      simp [mnemLoop, specWords, hdone]
    · obtain ⟨m, hm⟩ : ∃ m, need - words.length = m + 1 :=
        ⟨need - words.length - 1, by omega⟩
      rw [hm]
      simp [mnemLoop, specWords, hdone]
  | succ fuel ih =>
    intro f d words hf h1 h2
    by_cases hdone : need ≤ words.length
    · rw [Nat.sub_eq_zero_of_le hdone]
      simp [mnemLoop, specWords, hdone]
    · obtain ⟨m, hm⟩ : ∃ m, need - words.length = m + 1 :=
        ⟨need - words.length - 1, by omega⟩
      rw [hm]
      rw [mnemLoop, if_neg hdone, length_bufferAt]
      by_cases hrefill : 2 * d - (f - 1) * 512 + 1 ≥ 512
      · have h2d : 2 * d = f * 512 := by omega
        rw [if_pos hrefill, applyKeystream_bufferAt]
        simp only []
        rw [getD_bufferAt K 512 (f + 1) 0 (by omega), getD_bufferAt K 512 (f + 1) 1 (by omega)]
        rw [specWords]
        have hc0 : consumedByte K 512 (2 * d) = xorUpTo K 512 0 (f + 1) := by
          rw [consumedByte]
          have e1 : 2 * d % 512 = 0 := by omega
          have e2 : 2 * d / 512 + 1 = f + 1 := by omega
          rw [e1, e2]
        have hc1 : consumedByte K 512 (2 * d + 1) = xorUpTo K 512 1 (f + 1) := by
          rw [consumedByte]
          have e1 : (2 * d + 1) % 512 = 1 := by omega
          have e2 : (2 * d + 1) / 512 + 1 = f + 1 := by omega
          rw [e1, e2]
        rw [hc0, hc1]
        set v := xorUpTo K 512 0 (f + 1) + 256 * xorUpTo K 512 1 (f + 1) with hv
        have hthr : mnemonicRejectionThreshold = 62208 := by decide
        rw [hthr]
        by_cases hacc : v < 62208
        · rw [if_pos hacc, if_pos hacc]
          rw [show wordlist_size = 7776 from rfl,
            get?_eq_some_getD wl (v % 7776) "" (by rw [hwl]; exact Nat.mod_lt _ (by norm_num))]
          have hrec := ih (f + 1) (d + 1) (words ++ [wl.getD (v % 7776) ""])
            (by omega) (by omega) (by omega)
          have e1 : (f + 1) * 512 = f * 512 + 512 := by ring
          have e2 : 2 * (d + 1) - ((f + 1) - 1) * 512 = 2 := by omega
          rw [e1, e2] at hrec
          simp only [List.length_append, List.length_cons, List.length_nil] at hrec
          have e3 : need - (words.length + (0 + 1)) = m := by omega
          rw [e3] at hrec
          simp only [hrec, Option.map_map]
          apply Option.map_congr
          intro ws _
          simp [Function.comp, List.append_assoc]
        · rw [if_neg hacc, if_neg hacc]
          have hrec := ih (f + 1) (d + 1) words (by omega) (by omega) (by omega)
          have e1 : (f + 1) * 512 = f * 512 + 512 := by ring
          have e2 : 2 * (d + 1) - ((f + 1) - 1) * 512 = 2 := by omega
          rw [e1, e2, hm] at hrec
          exact hrec
      · have hlt : 2 * d < f * 512 := by omega
        have hpos : 2 * d - (f - 1) * 512 < 512 := by omega
        rw [if_neg hrefill]
        simp only []
        rw [getD_bufferAt K 512 f _ hpos, getD_bufferAt K 512 f _ (by omega)]
        rw [specWords]
        have hc0 : consumedByte K 512 (2 * d) = xorUpTo K 512 (2 * d - (f - 1) * 512) f := by
          rw [consumedByte]
          have e1 : 2 * d % 512 = 2 * d - (f - 1) * 512 := by omega
          have e2 : 2 * d / 512 + 1 = f := by omega
          rw [e1, e2]
        have hc1 : consumedByte K 512 (2 * d + 1) =
            xorUpTo K 512 (2 * d - (f - 1) * 512 + 1) f := by
          rw [consumedByte]
          have e1 : (2 * d + 1) % 512 = 2 * d - (f - 1) * 512 + 1 := by omega
          have e2 : (2 * d + 1) / 512 + 1 = f := by omega
          rw [e1, e2]
        rw [hc0, hc1]
        set v := xorUpTo K 512 (2 * d - (f - 1) * 512) f +
          256 * xorUpTo K 512 (2 * d - (f - 1) * 512 + 1) f with hv
        have hthr : mnemonicRejectionThreshold = 62208 := by decide
        rw [hthr]
        by_cases hacc : v < 62208
        · rw [if_pos hacc, if_pos hacc]
          rw [show wordlist_size = 7776 from rfl,
            get?_eq_some_getD wl (v % 7776) "" (by rw [hwl]; exact Nat.mod_lt _ (by norm_num))]
          have hrec := ih f (d + 1) (words ++ [wl.getD (v % 7776) ""])
            (by omega) (by omega) (by omega)
          have e2 : 2 * (d + 1) - (f - 1) * 512 = 2 * d - (f - 1) * 512 + 2 := by omega
          rw [e2] at hrec
          simp only [List.length_append, List.length_cons, List.length_nil] at hrec
          have e3 : need - (words.length + (0 + 1)) = m := by omega
          rw [e3] at hrec
          simp only [hrec, Option.map_map]
          apply Option.map_congr
          intro ws _
          simp [Function.comp, List.append_assoc]
        · rw [if_neg hacc, if_neg hacc]
          have hrec := ih f (d + 1) words (by omega) (by omega) (by omega)
          have e2 : 2 * (d + 1) - (f - 1) * 512 = 2 * d - (f - 1) * 512 + 2 := by omega
          rw [e2, hm] at hrec
          exact hrec

theorem pwLoop_eq_specChars (K : Nat → Nat) (need : Nat) :
    ∀ fuel f d acc, 0 < f → (f - 1) * 1024 ≤ d → d ≤ f * 1024 →
      pwLoop K need fuel (f * 1024) (bufferAt K 1024 f) (d - (f - 1) * 1024) acc =
        (specChars (consumedByte K 1024) fuel (need - acc.length) d).map
          (fun bs => Except.ok (acc ++ bs)) := by
  intro fuel
  induction fuel with
  | zero =>
    intro f d acc _ _ _
    by_cases hdone : need ≤ acc.length
    · rw [Nat.sub_eq_zero_of_le hdone]
      simp [pwLoop, specChars, hdone]
    · obtain ⟨m, hm⟩ : ∃ m, need - acc.length = m + 1 :=
        ⟨need - acc.length - 1, by omega⟩
      rw [hm]
      simp [pwLoop, specChars, hdone]
  | succ fuel ih =>
    intro f d acc hf h1 h2
    by_cases hdone : need ≤ acc.length
    · rw [Nat.sub_eq_zero_of_le hdone]
      simp [pwLoop, specChars, hdone]
    · obtain ⟨m, hm⟩ : ∃ m, need - acc.length = m + 1 :=
        ⟨need - acc.length - 1, by omega⟩
      rw [hm]
      rw [pwLoop, if_neg hdone, length_bufferAt]
      by_cases hrefill : d - (f - 1) * 1024 ≥ 1024
      · have hd : d = f * 1024 := by omega
        rw [if_pos hrefill, applyKeystream_bufferAt]
        simp only []
        rw [getD_bufferAt K 1024 (f + 1) 0 (by omega)]
        rw [specChars]
        have hc0 : consumedByte K 1024 d = xorUpTo K 1024 0 (f + 1) := by
          rw [consumedByte]
          have e1 : d % 1024 = 0 := by omega
          have e2 : d / 1024 + 1 = f + 1 := by omega
          rw [e1, e2]
        rw [hc0]
        set b := xorUpTo K 1024 0 (f + 1) with hb
        have hthr : passwordRejectionThreshold = 180 := by decide
        rw [hthr]
        by_cases hacc : b < 180
        · rw [if_pos hacc, if_pos hacc]
          rw [show ALPHABET.length = 90 from rfl,
            get?_eq_some_getD ALPHABET (b % 90) 0 (Nat.mod_lt _ (by norm_num))]
          have hrec := ih (f + 1) (d + 1) (acc ++ [ALPHABET.getD (b % 90) 0])
            (by omega) (by omega) (by omega)
          have e1 : (f + 1) * 1024 = f * 1024 + 1024 := by ring
          have e2 : d + 1 - ((f + 1) - 1) * 1024 = 1 := by omega
          rw [e1, e2] at hrec
          simp only [List.length_append, List.length_cons, List.length_nil] at hrec
          have e3 : need - (acc.length + (0 + 1)) = m := by omega
          rw [e3] at hrec
          simp only [hrec, Option.map_map]
          apply Option.map_congr
          intro bs _
          simp [Function.comp, List.append_assoc]
        · rw [if_neg hacc, if_neg hacc]
          have hrec := ih (f + 1) (d + 1) acc (by omega) (by omega) (by omega)
          have e1 : (f + 1) * 1024 = f * 1024 + 1024 := by ring
          have e2 : d + 1 - ((f + 1) - 1) * 1024 = 1 := by omega
          rw [e1, e2, hm] at hrec
          exact hrec
      · have hlt : d < f * 1024 := by omega
        have hpos : d - (f - 1) * 1024 < 1024 := by omega
        rw [if_neg hrefill]
        simp only []
        rw [getD_bufferAt K 1024 f _ hpos]
        rw [specChars]
        have hc0 : consumedByte K 1024 d = xorUpTo K 1024 (d - (f - 1) * 1024) f := by
          rw [consumedByte]
          have e1 : d % 1024 = d - (f - 1) * 1024 := by omega
          have e2 : d / 1024 + 1 = f := by omega
          rw [e1, e2]
        rw [hc0]
        set b := xorUpTo K 1024 (d - (f - 1) * 1024) f with hb
        have hthr : passwordRejectionThreshold = 180 := by decide
        rw [hthr]
        by_cases hacc : b < 180
        · rw [if_pos hacc, if_pos hacc]
          rw [show ALPHABET.length = 90 from rfl,
            get?_eq_some_getD ALPHABET (b % 90) 0 (Nat.mod_lt _ (by norm_num))]
          have hrec := ih f (d + 1) (acc ++ [ALPHABET.getD (b % 90) 0])
            (by omega) (by omega) (by omega)
          have e2 : d + 1 - (f - 1) * 1024 = d - (f - 1) * 1024 + 1 := by omega
          rw [e2] at hrec
          simp only [List.length_append, List.length_cons, List.length_nil] at hrec
          have e3 : need - (acc.length + (0 + 1)) = m := by omega
          rw [e3] at hrec
          simp only [hrec, Option.map_map]
          apply Option.map_congr
          intro bs _
          simp [Function.comp, List.append_assoc]
        · rw [if_neg hacc, if_neg hacc]
          have hrec := ih f (d + 1) acc (by omega) (by omega) (by omega)
          have e2 : d + 1 - (f - 1) * 1024 = d - (f - 1) * 1024 + 1 := by omega
          rw [e2, hm] at hrec
          exact hrec

theorem generate_mnemonic_eq (key : List Nat) (wl : List String) (hwl : wl.length = 7776)
    (n fuel : Nat) :
    generate_mnemonic key wl n fuel =
      (specWords (consumedByte (chachaKeystream key) 512) wl fuel n 0).map
        (fun ws => Except.ok (String.intercalate "-" ws)) := by
  rw [generate_mnemonic]
  rw [applyKeystream_replicate]
  have h := mnemLoop_eq_specWords (chachaKeystream key) wl hwl n fuel 1 0 []
    (by omega) (by omega) (by omega)
  norm_num at h
  rw [h]
  cases hs : specWords (consumedByte (chachaKeystream key) 512) wl fuel n 0 <;> simp

theorem generate_password_eq (key : List Nat) (n fuel : Nat) :
    generate_password key n fuel =
      (specChars (consumedByte (chachaKeystream key) 1024) fuel n 0).map
        (fun bs => rustFromUtf8 bs) := by
  rw [generate_password]
  rw [applyKeystream_replicate]
  have h := pwLoop_eq_specChars (chachaKeystream key) n fuel 1 0 []
    (by omega) (by omega) (by omega)
  norm_num at h
  rw [h]
  cases hs : specChars (consumedByte (chachaKeystream key) 1024) fuel n 0 <;> simp

/-! ## Properties of the spec-side samplers -/

theorem getD_mem {α : Type} (l : List α) (n : Nat) (d : α) (h : n < l.length) :
    l.getD n d ∈ l := by
  induction l generalizing n with
  | nil => simp at h
  | cons a l ih =>
    cases n with
    | zero => exact List.mem_cons_self a l
    | succ n => exact List.mem_cons_of_mem a (ih n (by simpa using h))

theorem specWords_length (S : Nat → Nat) (wl : List String) :
    ∀ fuel n d ws, specWords S wl fuel n d = some ws → ws.length = n := by
  intro fuel
  induction fuel with
  | zero =>
    intro n d ws h
    cases n with
    | zero => simp [specWords] at h; subst h; simp
    | succ n => simp [specWords] at h
  | succ fuel ih =>
    intro n d ws h
    cases n with
    | zero => simp [specWords] at h; subst h; simp
    | succ n =>
      rw [specWords] at h
      by_cases hacc : S (2 * d) + 256 * S (2 * d + 1) < 62208
      · rw [if_pos hacc] at h
        rcases Option.map_eq_some'.mp h with ⟨ws0, h0, hws⟩
        subst hws
        simp [ih n (d + 1) ws0 h0]
      · rw [if_neg hacc] at h
        exact ih (n + 1) (d + 1) ws h
  

theorem specWords_mem (S : Nat → Nat) (wl : List String) (hwl : wl.length = 7776) :
    ∀ fuel n d ws, specWords S wl fuel n d = some ws → ∀ w ∈ ws, w ∈ wl := by
  intro fuel
  induction fuel with
  | zero =>
    intro n d ws h
    cases n with
    | zero => simp [specWords] at h; subst h; simp
    | succ n => simp [specWords] at h
  | succ fuel ih =>
    intro n d ws h
    cases n with
    | zero => simp [specWords] at h; subst h; simp
    | succ n =>
      rw [specWords] at h
      by_cases hacc : S (2 * d) + 256 * S (2 * d + 1) < 62208
      · rw [if_pos hacc] at h
        rcases Option.map_eq_some'.mp h with ⟨ws0, h0, hws⟩
        subst hws
        intro w hw
        rcases List.mem_cons.mp hw with hw | hw
        · subst hw
          exact getD_mem wl _ "" (by rw [hwl]; exact Nat.mod_lt _ (by norm_num))
        · exact ih n (d + 1) ws0 h0 w hw
      · rw [if_neg hacc] at h
        exact ih (n + 1) (d + 1) ws h

theorem specChars_length (S : Nat → Nat) :
    ∀ fuel n d bs, specChars S fuel n d = some bs → bs.length = n := by
  intro fuel
  induction fuel with
  | zero =>
    intro n d bs h
    cases n with
    | zero => simp [specChars] at h; simp [← h]
    | succ n => simp [specChars] at h
  | succ fuel ih =>
    intro n d bs h
    cases n with
    | zero => simp [specChars] at h; simp [← h]
    | succ n =>
      rw [specChars] at h
      by_cases hacc : S d < 180
      · rw [if_pos hacc] at h
        rcases Option.map_eq_some'.mp h with ⟨bs0, h0, hbs⟩
        subst hbs
        simp [ih n (d + 1) bs0 h0]
      · rw [if_neg hacc] at h
        exact ih (n + 1) (d + 1) bs h

theorem specChars_mem (S : Nat → Nat) :
    ∀ fuel n d bs, specChars S fuel n d = some bs → ∀ b ∈ bs, b ∈ ALPHABET := by
  intro fuel
  induction fuel with
  | zero =>
    intro n d bs h
    cases n with
    | zero => simp [specChars] at h; subst h; simp
    | succ n => simp [specChars] at h
  | succ fuel ih =>
    intro n d bs h
    cases n with
    | zero => simp [specChars] at h; subst h; simp
    | succ n =>
      rw [specChars] at h
      by_cases hacc : S d < 180
      · rw [if_pos hacc] at h
        rcases Option.map_eq_some'.mp h with ⟨bs0, h0, hbs⟩
        subst hbs
        intro b hb
        rcases List.mem_cons.mp hb with hb | hb
        · subst hb
          exact getD_mem ALPHABET _ 0 (Nat.mod_lt _ (by norm_num))
        · exact ih n (d + 1) bs0 h0 b hb
      · rw [if_neg hacc] at h
        exact ih (n + 1) (d + 1) bs h

theorem specWords_total (S : Nat → Nat) (wl : List String)
    (hinf : ∀ m, ∃ j, m ≤ j ∧ S (2 * j) + 256 * S (2 * j + 1) < 62208) :
    ∀ n d, ∃ fuel, (specWords S wl fuel n d).isSome = true := by
  intro n
  induction n with
  | zero => exact fun d => ⟨0, rfl⟩
  | succ n ihn =>
    intro d
    obtain ⟨j, hdj, hj⟩ := hinf d
    have inner : ∀ k d2, d2 ≤ j → j - d2 ≤ k →
        ∃ fuel, (specWords S wl fuel (n + 1) d2).isSome = true := by
      intro k
      induction k with
      | zero =>
        intro d2 hle hsub
        have hd2 : d2 = j := by omega
        subst hd2
        obtain ⟨fuel0, h0⟩ := ihn (d2 + 1)
        obtain ⟨ws0, h0⟩ := Option.isSome_iff_exists.mp h0
        refine ⟨fuel0 + 1, ?_⟩
        rw [specWords, if_pos hj, h0]
        rfl
      | succ k ihk =>
        intro d2 hle hsub
        by_cases hacc : S (2 * d2) + 256 * S (2 * d2 + 1) < 62208
        · obtain ⟨fuel0, h0⟩ := ihn (d2 + 1)
          obtain ⟨ws0, h0⟩ := Option.isSome_iff_exists.mp h0
          refine ⟨fuel0 + 1, ?_⟩
          rw [specWords, if_pos hacc, h0]
          rfl
        · have hne : d2 ≠ j := fun he => hacc (he ▸ hj)
          obtain ⟨fuel1, h1⟩ := ihk (d2 + 1) (by omega) (by omega)
          refine ⟨fuel1 + 1, ?_⟩
          rw [specWords, if_neg hacc]
          exact h1
    exact inner (j - d) d hdj le_rfl

theorem specChars_total (S : Nat → Nat)
    (hinf : ∀ m, ∃ j, m ≤ j ∧ S j < 180) :
    ∀ n d, ∃ fuel, (specChars S fuel n d).isSome = true := by
  intro n
  induction n with
  | zero => exact fun d => ⟨0, rfl⟩
  | succ n ihn =>
    intro d
    obtain ⟨j, hdj, hj⟩ := hinf d
    have inner : ∀ k d2, d2 ≤ j → j - d2 ≤ k →
        ∃ fuel, (specChars S fuel (n + 1) d2).isSome = true := by
      intro k
      induction k with
      | zero =>
        intro d2 hle hsub
        have hd2 : d2 = j := by omega
        subst hd2
        obtain ⟨fuel0, h0⟩ := ihn (d2 + 1)
        obtain ⟨bs0, h0⟩ := Option.isSome_iff_exists.mp h0
        refine ⟨fuel0 + 1, ?_⟩
        rw [specChars, if_pos hj, h0]
        rfl
      | succ k ihk =>
        intro d2 hle hsub
        by_cases hacc : S d2 < 180
        · obtain ⟨fuel0, h0⟩ := ihn (d2 + 1)
          obtain ⟨bs0, h0⟩ := Option.isSome_iff_exists.mp h0
          refine ⟨fuel0 + 1, ?_⟩
          rw [specChars, if_pos hacc, h0]
          rfl
        · have hne : d2 ≠ j := fun he => hacc (he ▸ hj)
          obtain ⟨fuel1, h1⟩ := ihk (d2 + 1) (by omega) (by omega)
          refine ⟨fuel1 + 1, ?_⟩
          rw [specChars, if_neg hacc]
          exact h1
    exact inner (j - d) d hdj le_rfl

/-! ## ASCII byte lists are valid UTF-8 -/

theorem utf8ValidFuel_ascii :
    ∀ fuel bs, bs.length ≤ fuel → (∀ b ∈ bs, b < 128) → utf8ValidFuel fuel bs = true := by
  intro fuel
  induction fuel with
  | zero =>
    intro bs hlen _
    cases bs with
    | nil => rfl
    | cons b bs => simp at hlen
  | succ fuel ih =>
    intro bs hlen hascii
    cases bs with
    | nil => rfl
    | cons b bs =>
      have hb : b < 128 := hascii b (List.mem_cons_self b bs)
      simp only [utf8ValidFuel]
      rw [if_pos hb]
      exact ih bs (by simpa using hlen) (fun c hc => hascii c (List.mem_cons_of_mem b hc))

theorem utf8Valid_ascii (bs : List Nat) (h : ∀ b ∈ bs, b < 128) : utf8Valid bs = true :=
  utf8ValidFuel_ascii bs.length bs le_rfl h

theorem rustFromUtf8_ascii (bs : List Nat) (h : ∀ b ∈ bs, b < 128) :
    rustFromUtf8 bs = Except.ok (String.mk (bs.map (fun b => Char.ofNat b))) := by
  rw [rustFromUtf8, if_pos (utf8Valid_ascii bs h)]

/-! ## Properties of the derivation chain -/

theorem blake2b512_length (bs : List Nat) : (blake2b512 bs).length = 64 := by
  simp [blake2b512]

theorem deriveLoop_ok_iff (H : List Nat → List Nat → Except Unit (List Nat)) :
    ∀ ls k j k2, (deriveLoop H k ls j = Except.ok k2 ↔ specChainFold H k ls = Except.ok k2) := by
  intro ls
  induction ls with
  | nil => intro k j k2; simp [deriveLoop, specChainFold]
  | cons l ls ih =>
    intro k j k2
    cases hH : H k (normalizeSalt l) with
    | ok nk =>
      rw [deriveLoop, specChainFold]
      simp only [derive_single, hH]
      exact ih nk (j + 1) k2
    | error e =>
      rw [deriveLoop, specChainFold]
      simp only [derive_single, hH]
      simp

theorem deriveLoop_error_shape (H : List Nat → List Nat → Except Unit (List Nat)) :
    ∀ ls k j e, deriveLoop H k ls j = Except.error e → ∃ t, e = KdfError.deriveLayer t := by
  intro ls
  induction ls with
  | nil => intro k j e h; simp [deriveLoop] at h
  | cons l ls ih =>
    intro k j e h
    rw [deriveLoop] at h
    cases hH : derive_single H k l with
    | ok nk =>
      rw [hH] at h
      exact ih nk (j + 1) e h
    | error u =>
      rw [hH] at h
      simp at h
      exact ⟨j, h.symm⟩

theorem deriveLoop_length (H : List Nat → List Nat → Except Unit (List Nat))
    (h32 : ∀ pw s k, H pw s = Except.ok k → k.length = OUTPUT_LEN) :
    ∀ ls k j k2, k.length = OUTPUT_LEN → deriveLoop H k ls j = Except.ok k2 →
      k2.length = OUTPUT_LEN := by
  intro ls
  induction ls with
  | nil =>
    intro k j k2 hk h
    simp only [deriveLoop] at h
    cases h
    exact hk
  | cons l ls ih =>
    intro k j k2 hk h
    rw [deriveLoop] at h
    cases hH : derive_single H k l with
    | ok nk =>
      rw [hH] at h
      exact ih nk (j + 1) k2 (h32 k (normalizeSalt l) nk hH) h
    | error u =>
      rw [hH] at h
      simp at h

theorem deriveLoop_failsAt (H : List Nat → List Nat → Except Unit (List Nat)) :
    ∀ ls k j t, failsAt H k ls = some t →
      deriveLoop H k ls j = Except.error (KdfError.deriveLayer (j + t)) := by
  intro ls
  induction ls with
  | nil => intro k j t h; simp [failsAt] at h
  | cons l ls ih =>
    intro k j t h
    rw [failsAt] at h
    rw [deriveLoop]
    cases hH : derive_single H k l with
    | ok nk =>
      rw [hH] at h
      rcases Option.map_eq_some'.mp h with ⟨t0, h0, ht⟩
      subst ht
      show deriveLoop H nk ls (j + 1) = Except.error (KdfError.deriveLayer (j + (t0 + 1)))
      rw [ih nk (j + 1) t0 h0]
      have he : j + 1 + t0 = j + (t0 + 1) := by omega
      rw [he]
    | error u =>
      rw [hH] at h
      simp at h
      subst h
      rfl

/-! ## Claims about the key derivation -/

/-- C1: for a non-empty layer list and a valid configuration,
`derive_hierarchical` instantiates the KDF at Argon2id version 0x13 with
the given cost configuration and computes exactly the spec chain: the
master secret is the stage-1 password salted by the normalized first
layer, each later stage uses the previous key as password and the
normalized current layer as salt, the final stage output is returned, and
any returned key has exactly 32 bytes. -/
theorem claim_C1 (Hfam : Argon2Fn) (paramsValid : Argon2Config → Bool) (cfg : Argon2Config)
    (master : List Nat) (layers : List (List Nat))
    (hne : layers ≠ [])
    (hpv : paramsValid cfg = true)
    (h32 : ∀ pw s k,
      Hfam (Argon2Instance.mk Argon2Algorithm.Argon2id Argon2Version.V0x13 cfg) pw s =
        Except.ok k → k.length = OUTPUT_LEN) :
    (∀ k, derive_hierarchical Hfam paramsValid master layers cfg = Except.ok k ↔
      specChain (Hfam (Argon2Instance.mk Argon2Algorithm.Argon2id Argon2Version.V0x13 cfg))
        master layers = Except.ok k) ∧
    (∀ k, derive_hierarchical Hfam paramsValid master layers cfg = Except.ok k →
      k.length = OUTPUT_LEN) := by
  cases layers with
  | nil => exact absurd rfl hne
  | cons l0 rest =>
    rw [derive_hierarchical, specChain, if_pos hpv]
    simp only []
    cases hH : derive_single
        (Hfam (Argon2Instance.mk Argon2Algorithm.Argon2id Argon2Version.V0x13 cfg)) master l0 with
    | ok k1 =>
      rw [derive_single] at hH
      rw [hH]
      constructor
      · intro k
        exact deriveLoop_ok_iff _ rest k1 2 k
      · intro k hk
        exact deriveLoop_length _ h32 rest k1 2 k
          (h32 master (normalizeSalt l0) k1 hH) hk
    | error u =>
      rw [derive_single] at hH
      rw [hH]
      constructor
      · intro k
        simp
      · intro k hk
        simp at hk

/-- Argon2 instance used by the C1 witness: a total function whose output
is always 32 bytes and depends on the password and salt lengths. -/
def HokW : Argon2Fn :=
  fun _ pw salt => Except.ok (List.replicate 32 ((pw.length + salt.length) % 256))

theorem claim_C1_witness :
    derive_hierarchical HokW (fun _ => true) [108, 105, 102, 101] [[111, 117, 116]]
      Argon2Config.STANDARD = Except.ok (List.replicate 32 68) ∧
    (List.replicate 32 (68 : Nat)).length = OUTPUT_LEN := by
  constructor
  · rfl
  · exact (claim_C1 HokW (fun _ => true) Argon2Config.STANDARD [108, 105, 102, 101]
      [[111, 117, 116]] (by simp) rfl
      (fun pw s k h => by cases h; simp [OUTPUT_LEN])).2 (List.replicate 32 68) rfl

/-- C5: salt normalization is pure and case-split on the fixed 16-byte
minimum `MIN_SALT_LEN`: a layer of at least 16 bytes is used unchanged as
the salt, a shorter layer is replaced by its full 64-byte Blake2b-512
digest. -/
theorem claim_C5 (salt_input : List Nat) :
    MIN_SALT_LEN = 16 ∧
    (MIN_SALT_LEN ≤ salt_input.length → normalizeSalt salt_input = salt_input) ∧
    (salt_input.length < MIN_SALT_LEN →
      normalizeSalt salt_input = blake2b512 salt_input ∧
      (normalizeSalt salt_input).length = 64) := by
  refine ⟨rfl, fun h => ?_, fun h => ?_⟩
  · rw [normalizeSalt, if_pos h]
  · have hlt : ¬(salt_input.length ≥ MIN_SALT_LEN) := by omega
    constructor
    · rw [normalizeSalt, if_neg hlt]
    · rw [normalizeSalt, if_neg hlt]
      exact blake2b512_length salt_input

theorem claim_C5_witness :
    normalizeSalt [111, 117, 116] = blake2b512 [111, 117, 116] ∧
    (normalizeSalt [111, 117, 116]).length = 64 ∧
    normalizeSalt (List.replicate 16 0) = List.replicate 16 0 := by
  refine ⟨((claim_C5 [111, 117, 116]).2.2 (by decide)).1,
    ((claim_C5 [111, 117, 116]).2.2 (by decide)).2,
    (claim_C5 (List.replicate 16 0)).2.1 (by decide)⟩

/-- C6: derivation and generation are deterministic: both are pure
functions of their arguments in this embedding (the Rust functions hold no
state beyond their arguments), so identical inputs give identical
outputs. -/
theorem claim_C6 (Hfam : Argon2Fn) (paramsValid : Argon2Config → Bool)
    (master : List Nat) (layers : List (List Nat)) (cfg : Argon2Config)
    (key : List Nat) (wl : List String) (n fuel m fuel2 : Nat) :
    derive_hierarchical Hfam paramsValid master layers cfg =
      derive_hierarchical Hfam paramsValid master layers cfg ∧
    generate_mnemonic key wl n fuel = generate_mnemonic key wl n fuel ∧
    generate_password key m fuel2 = generate_password key m fuel2 :=
  ⟨rfl, rfl, rfl⟩

/-- C7: an empty layer list is rejected with the dedicated error before
any derivation work, and no other input can produce that error. -/
theorem claim_C7 (Hfam : Argon2Fn) (paramsValid : Argon2Config → Bool)
    (master : List Nat) (cfg : Argon2Config) :
    derive_hierarchical Hfam paramsValid master [] cfg =
      Except.error KdfError.emptyLayers ∧
    ∀ layers, layers ≠ [] →
      derive_hierarchical Hfam paramsValid master layers cfg ≠
        Except.error KdfError.emptyLayers := by
  constructor
  · rfl
  · intro layers hne
    cases layers with
    | nil => exact absurd rfl hne
    | cons l0 rest =>
      rw [derive_hierarchical]
      by_cases hpv : paramsValid cfg
      · rw [if_pos hpv]
        simp only []
        cases hH : derive_single
            (Hfam (Argon2Instance.mk Argon2Algorithm.Argon2id Argon2Version.V0x13 cfg))
            master l0 with
        | ok k1 =>
          intro h
          rcases deriveLoop_error_shape _ rest k1 2 KdfError.emptyLayers h with ⟨t, ht⟩
          cases ht
        | error u =>
          intro h
          cases h
      · rw [if_neg hpv]
        intro h
        cases h

theorem claim_C7_witness :
    derive_hierarchical HokW (fun _ => true) [108] [[111, 117, 116]] Argon2Config.STANDARD ≠
      Except.error KdfError.emptyLayers :=
  (claim_C7 HokW (fun _ => true) [108] Argon2Config.STANDARD).2 [[111, 117, 116]] (by simp)

/-- Argon2 instance used by the C8 counterexample: every derivation stage
fails, as when the host cannot allocate the requested memory. -/
def HfailW : Argon2Fn := fun _ _ _ => Except.error ()

/-- C8 counterexample: with a failing Argon2 and a single layer the first
stage fails, but the returned error is the plain master-secret context,
which carries no layer index at all; the claim that a first-stage failure
is annotated with the 1-based index 1 of the failing layer is false. -/
theorem claim_C8_counterexample :
    derive_hierarchical HfailW (fun _ => true) [108] [[111, 117, 116]]
      Argon2Config.STANDARD = Except.error KdfError.deriveMaster ∧
    KdfError.deriveMaster ≠ KdfError.deriveLayer 1 ∧
    KdfError.message KdfError.deriveMaster = "Failed to derive key from master secret" ∧
    KdfError.message (KdfError.deriveLayer 1) = "Failed to derive key at layer 1" := by
  refine ⟨rfl, by simp, rfl, rfl⟩

/-- C8 amended: a failure at stage `i ≥ 2` is annotated with the 1-based
index `i` of the failing layer, but a failure at the first stage is
reported as a master-secret derivation failure without any layer index. -/
theorem claim_C8 (Hfam : Argon2Fn) (paramsValid : Argon2Config → Bool) (cfg : Argon2Config)
    (master l0 : List Nat) (rest : List (List Nat))
    (hpv : paramsValid cfg = true) :
    (derive_single (Hfam (Argon2Instance.mk Argon2Algorithm.Argon2id Argon2Version.V0x13 cfg))
        master l0 = Except.error () →
      derive_hierarchical Hfam paramsValid master (l0 :: rest) cfg =
        Except.error KdfError.deriveMaster) ∧
    (∀ k1 t,
      derive_single (Hfam (Argon2Instance.mk Argon2Algorithm.Argon2id Argon2Version.V0x13 cfg))
        master l0 = Except.ok k1 →
      failsAt (Hfam (Argon2Instance.mk Argon2Algorithm.Argon2id Argon2Version.V0x13 cfg))
        k1 rest = some t →
      derive_hierarchical Hfam paramsValid master (l0 :: rest) cfg =
        Except.error (KdfError.deriveLayer (t + 2))) := by
  constructor
  · intro hH
    rw [derive_hierarchical, if_pos hpv]
    simp only []
    rw [hH]
  · intro k1 t hH hfail
    rw [derive_hierarchical, if_pos hpv]
    simp only []
    rw [hH]
    show deriveLoop
        (Hfam (Argon2Instance.mk Argon2Algorithm.Argon2id Argon2Version.V0x13 cfg)) k1 rest 2 =
      Except.error (KdfError.deriveLayer (t + 2))
    rw [deriveLoop_failsAt _ rest k1 2 t hfail]
    have he : 2 + t = t + 2 := by omega
    rw [he]

/-- Argon2 instance used by the C8 witness: succeeds exactly when the
password is the master secret `[108]`, so the chain fails at the second
stage. -/
def HonceW : Argon2Fn :=
  fun _ pw _ => if pw = [108] then Except.ok (List.replicate 32 1) else Except.error ()

theorem claim_C8_witness :
    derive_hierarchical HonceW (fun _ => true) [108] [[111, 117, 116], [111, 102]]
      Argon2Config.STANDARD = Except.error (KdfError.deriveLayer 2) :=
  (claim_C8 HonceW (fun _ => true) Argon2Config.STANDARD [108] [111, 117, 116]
    [[111, 102]] rfl).2 (List.replicate 32 1) 0 rfl rfl

/-! ## Claims about the generators -/

/-- Concrete key used by witnesses: 32 zero bytes. -/
def keyW : List Nat := List.replicate 32 0

/-- Concrete word table used by witnesses: 7776 entries. -/
def wlW : List String := List.replicate 7776 "w"

theorem wlW_length : wlW.length = 7776 := by
  rw [wlW]
  exact List.length_replicate 7776 "w"

theorem consumedByte_lt (K : Nat → Nat) (B p : Nat) (hp : p < B) :
    consumedByte K B p = K p := by
  rw [consumedByte, Nat.div_eq_of_lt hp, Nat.mod_eq_of_lt hp]
  show Nat.xor (xorUpTo K B p 0) (K (0 * B + p)) = K p
  rw [show (0 : Nat) * B + p = p by omega, xorUpTo]
  exact Nat.zero_xor (K p)

/-- C2: every successful mnemonic generation returns the hyphen-join of
exactly `n` words of the table, selected by little-endian 16-bit rejection
sampling with threshold `floor(65536/7776)*7776 = 62208` and index
`v mod 7776`; zero requested words give the empty string. -/
theorem claim_C2 (key : List Nat) (wl : List String) (hwl : wl.length = 7776) (n fuel : Nat) :
    (65536 / 7776 * 7776 = 62208 ∧ mnemonicRejectionThreshold = 62208) ∧
    (∀ out, generate_mnemonic key wl n fuel = some (Except.ok out) →
      ∃ ws, specWords (consumedByte (chachaKeystream key) 512) wl fuel n 0 = some ws ∧
        out = String.intercalate "-" ws ∧ ws.length = n ∧ ∀ w ∈ ws, w ∈ wl) ∧
    generate_mnemonic key wl 0 fuel = some (Except.ok "") := by
  refine ⟨⟨by norm_num, by decide⟩, ?_, ?_⟩
  · intro out h
    rw [generate_mnemonic_eq key wl hwl] at h
    cases hs : specWords (consumedByte (chachaKeystream key) 512) wl fuel n 0 with
    | none => rw [hs] at h; simp at h
    | some ws =>
      rw [hs] at h
      simp only [Option.map_some'] at h
      have hout : String.intercalate "-" ws = out := by
        injection h with h2
        injection h2
      exact ⟨ws, rfl, hout.symm, specWords_length _ wl fuel n 0 ws hs,
        specWords_mem _ wl hwl fuel n 0 ws hs⟩
  · rw [generate_mnemonic_eq key wl hwl]
    have hs : specWords (consumedByte (chachaKeystream key) 512) wl fuel 0 0 = some [] := by
      cases fuel <;> rfl
    rw [hs]
    rfl

theorem claim_C2_witness :
    (∃ ws, specWords (consumedByte (chachaKeystream keyW) 512) wlW 1 1 0 = some ws ∧
      "w" = String.intercalate "-" ws ∧ ws.length = 1 ∧ ∀ w ∈ ws, w ∈ wlW) ∧
    generate_mnemonic keyW wlW 0 1 = some (Except.ok "") :=
  ⟨(claim_C2 keyW wlW wlW_length 1 1).2.1 "w" rfl,
    (claim_C2 keyW wlW wlW_length 0 1).2.2⟩


/-- C3 counterexample: the claim that the bytes consumed after a buffer
refill equal the next chunk of the raw keystream is false: `apply_keystream`
XORs the next chunk into the not-reset buffer, so already the first byte
read after the first refill (read position 512 for the mnemonic buffer,
1024 for the password buffer) differs from the corresponding keystream
byte for the all-zero key. -/
theorem claim_C3_counterexample :
    (applyKeystream (chachaKeystream keyW) 512 (bufferAt (chachaKeystream keyW) 512 1)).getD 0 0 ≠
      chachaKeystream keyW 512 ∧
    consumedByte (chachaKeystream keyW) 512 512 ≠ chachaKeystream keyW 512 ∧
    consumedByte (chachaKeystream keyW) 1024 1024 ≠ chachaKeystream keyW 1024 := by
  refine ⟨by decide, by decide, by decide⟩

/-- C3 amended: both generators are equivalent to sampling an unbounded
deterministic stream derived from the ChaCha20 keystream, namely the
stream whose byte at read position `p` is the XOR of the keystream bytes
at offset `p mod B` of all `p div B + 1` chunks produced so far (`B` the
buffer size); this consumed stream coincides with the raw keystream
exactly on the first buffer fill (`p < B`), because each refill XORs the
next chunk onto the previous buffer contents instead of replacing them.
There is no re-keying and no nonce reset: chunk `c` covers keystream bytes
`[c*B, (c+1)*B)` of the single stream. -/
theorem claim_C3 (key : List Nat) (wl : List String) (hwl : wl.length = 7776)
    (n fuel m fuel2 p q : Nat) (hp : p < 512) (hq : q < 1024) :
    consumedByte (chachaKeystream key) 512 p = chachaKeystream key p ∧
    consumedByte (chachaKeystream key) 1024 q = chachaKeystream key q ∧
    generate_mnemonic key wl n fuel =
      (specWords (consumedByte (chachaKeystream key) 512) wl fuel n 0).map
        (fun ws => Except.ok (String.intercalate "-" ws)) ∧
    generate_password key m fuel2 =
      (specChars (consumedByte (chachaKeystream key) 1024) fuel2 m 0).map
        (fun bs => rustFromUtf8 bs) :=
  ⟨consumedByte_lt _ 512 p hp, consumedByte_lt _ 1024 q hq,
    generate_mnemonic_eq key wl hwl n fuel, generate_password_eq key m fuel2⟩

theorem claim_C3_witness :
    consumedByte (chachaKeystream keyW) 512 0 = chachaKeystream keyW 0 ∧
    consumedByte (chachaKeystream keyW) 1024 0 = chachaKeystream keyW 0 ∧
    generate_mnemonic keyW wlW 0 0 =
      (specWords (consumedByte (chachaKeystream keyW) 512) wlW 0 0 0).map
        (fun ws => Except.ok (String.intercalate "-" ws)) ∧
    generate_password keyW 0 0 =
      (specChars (consumedByte (chachaKeystream keyW) 1024) 0 0 0).map
        (fun bs => rustFromUtf8 bs) :=
  claim_C3 keyW wlW wlW_length 0 0 0 0 0 0 (by norm_num) (by norm_num)

/-- C4: every successful password generation returns exactly `n`
characters of the fixed 90-character alphabet, selected by single-byte
rejection sampling with threshold `256 - (256 mod 90) = 180` and index
`b mod 90`; every byte below 180 maps to a valid alphabet index; zero
requested characters give the empty string. -/
theorem claim_C4 (key : List Nat) (n fuel : Nat) :
    (passwordRejectionThreshold = 180 ∧ 256 - 256 % 90 = 180 ∧ ALPHABET.length = 90 ∧
      ∀ b, b < 180 → b % 90 < ALPHABET.length) ∧
    (∀ out, generate_password key n fuel = some (Except.ok out) →
      ∃ bs, specChars (consumedByte (chachaKeystream key) 1024) fuel n 0 = some bs ∧
        out = String.mk (bs.map (fun b => Char.ofNat b)) ∧ bs.length = n ∧
        out.length = n ∧ ∀ b ∈ bs, b ∈ ALPHABET) ∧
    generate_password key 0 fuel = some (Except.ok "") := by
  have hA : ∀ b ∈ ALPHABET, b < 128 := by decide
  refine ⟨⟨by decide, by norm_num, by decide,
    fun b _ => by rw [show ALPHABET.length = 90 from rfl]; exact Nat.mod_lt _ (by norm_num)⟩,
    ?_, ?_⟩
  · intro out h
    rw [generate_password_eq key n fuel] at h
    cases hs : specChars (consumedByte (chachaKeystream key) 1024) fuel n 0 with
    | none => rw [hs] at h; simp at h
    | some bs =>
      rw [hs] at h
      simp only [Option.map_some'] at h
      have hmem : ∀ b ∈ bs, b ∈ ALPHABET := specChars_mem _ fuel n 0 bs hs
      have hascii : ∀ b ∈ bs, b < 128 := fun b hb => hA b (hmem b hb)
      rw [rustFromUtf8_ascii bs hascii] at h
      have hout : String.mk (bs.map (fun b => Char.ofNat b)) = out := by
        injection h with h2
        injection h2
      have hlen : bs.length = n := specChars_length _ fuel n 0 bs hs
      refine ⟨bs, rfl, hout.symm, hlen, ?_, hmem⟩
      rw [← hout]
      show (bs.map (fun b => Char.ofNat b)).length = n
      rw [List.length_map]
      exact hlen
  · rw [generate_password_eq key 0 fuel]
    have hs : specChars (consumedByte (chachaKeystream key) 1024) fuel 0 0 = some [] := by
      cases fuel <;> rfl
    rw [hs]
    rfl

theorem claim_C4_witness :
    (∃ bs, specChars (consumedByte (chachaKeystream keyW) 1024) 1 1 0 = some bs ∧
      "c" = String.mk (bs.map (fun b => Char.ofNat b)) ∧ bs.length = 1 ∧
      ("c" : String).length = 1 ∧ ∀ b ∈ bs, b ∈ ALPHABET) ∧
    generate_password keyW 0 1 = some (Except.ok "") :=
  ⟨(claim_C4 keyW 1 1).2.1 "c" rfl, (claim_C4 keyW 0 1).2.2⟩

theorem xorUpTo_zero (B o : Nat) : ∀ f, xorUpTo (fun _ => 0) B o f = 0
  | 0 => rfl
  | f + 1 => by rw [xorUpTo, xorUpTo_zero B o f]; rfl

theorem consumedByte_zero (B p : Nat) : consumedByte (fun _ => 0) B p = 0 := by
  rw [consumedByte]
  exact xorUpTo_zero B (p % B) (p / B + 1)

/-- C9: the rejection thresholds computed from the fixed symbol-set sizes
are strictly positive (62208 and 180), so below-threshold draws exist, and
whenever the consumed stream keeps producing below-threshold draws the
sampling loops of `generate_mnemonic` and `generate_password` terminate
with some fuel for every requested count. -/
theorem claim_C9 (K : Nat → Nat) (wl : List String) (hwl : wl.length = 7776) (n m : Nat)
    (hinfW : ∀ i, ∃ j, i ≤ j ∧
      consumedByte K 512 (2 * j) + 256 * consumedByte K 512 (2 * j + 1) <
        mnemonicRejectionThreshold)
    (hinfP : ∀ i, ∃ j, i ≤ j ∧ consumedByte K 1024 j < passwordRejectionThreshold) :
    (0 < mnemonicRejectionThreshold ∧ mnemonicRejectionThreshold = 62208) ∧
    (0 < passwordRejectionThreshold ∧ passwordRejectionThreshold = 180) ∧
    (∃ fuel, (mnemLoop K wl n fuel 512 (bufferAt K 512 1) 0 []).isSome = true) ∧
    (∃ fuel, (pwLoop K m fuel 1024 (bufferAt K 1024 1) 0 []).isSome = true) := by
  have hthrW : mnemonicRejectionThreshold = 62208 := by decide
  have hthrP : passwordRejectionThreshold = 180 := by decide
  refine ⟨⟨by rw [hthrW]; norm_num, hthrW⟩, ⟨by rw [hthrP]; norm_num, hthrP⟩, ?_, ?_⟩
  · rw [hthrW] at hinfW
    obtain ⟨fuel, hf⟩ := specWords_total (consumedByte K 512) wl hinfW n 0
    obtain ⟨ws, hws⟩ := Option.isSome_iff_exists.mp hf
    refine ⟨fuel, ?_⟩
    have h := mnemLoop_eq_specWords K wl hwl n fuel 1 0 [] (by omega) (by omega) (by omega)
    norm_num at h
    rw [h, hws]
    rfl
  · rw [hthrP] at hinfP
    obtain ⟨fuel, hf⟩ := specChars_total (consumedByte K 1024) hinfP m 0
    obtain ⟨bs, hbs⟩ := Option.isSome_iff_exists.mp hf
    refine ⟨fuel, ?_⟩
    have h := pwLoop_eq_specChars K m fuel 1 0 [] (by omega) (by omega) (by omega)
    norm_num at h
    rw [h, hbs]
    rfl

theorem claim_C9_witness :
    (0 < mnemonicRejectionThreshold ∧ mnemonicRejectionThreshold = 62208) ∧
    (0 < passwordRejectionThreshold ∧ passwordRejectionThreshold = 180) ∧
    (∃ fuel, (mnemLoop (fun _ => 0) wlW 1 fuel 512
      (bufferAt (fun _ => 0) 512 1) 0 []).isSome = true) ∧
    (∃ fuel, (pwLoop (fun _ => 0) 1 fuel 1024
      (bufferAt (fun _ => 0) 1024 1) 0 []).isSome = true) :=
  claim_C9 (fun _ => 0) wlW wlW_length 1 1
    (fun i => ⟨i, le_rfl, by rw [consumedByte_zero, consumedByte_zero]; decide⟩)
    (fun i => ⟨i, le_rfl, by rw [consumedByte_zero]; decide⟩)

/-- C10: the symbol-assembly error branches are unreachable: every
accepted 16-bit draw indexes within the 7776-entry word table, every
accepted byte indexes within the 90-byte alphabet, alphabet bytes are
ASCII so the final UTF-8 conversion succeeds, and whenever the sampling
loop completes both generators return an `ok` result. -/
theorem claim_C10 (key : List Nat) (wl : List String) (hwl : wl.length = 7776)
    (n m fuel fuel2 : Nat) :
    (∀ v, v % wordlist_size < wl.length) ∧
    (∀ b, b % ALPHABET.length < ALPHABET.length) ∧
    (∀ bs, (∀ b ∈ bs, b ∈ ALPHABET) →
      rustFromUtf8 bs = Except.ok (String.mk (bs.map (fun b => Char.ofNat b)))) ∧
    ((specWords (consumedByte (chachaKeystream key) 512) wl fuel n 0).isSome = true →
      ∃ s, generate_mnemonic key wl n fuel = some (Except.ok s)) ∧
    ((specChars (consumedByte (chachaKeystream key) 1024) fuel2 m 0).isSome = true →
      ∃ s, generate_password key m fuel2 = some (Except.ok s)) := by
  have hA : ∀ b ∈ ALPHABET, b < 128 := by decide
  refine ⟨?_, ?_, ?_, ?_, ?_⟩
  · intro v
    rw [hwl]
    show v % 7776 < 7776
    exact Nat.mod_lt _ (by norm_num)
  · intro b
    show b % 90 < 90
    exact Nat.mod_lt _ (by norm_num)
  · intro bs hmem
    exact rustFromUtf8_ascii bs (fun b hb => hA b (hmem b hb))
  · intro hsome
    obtain ⟨ws, hws⟩ := Option.isSome_iff_exists.mp hsome
    refine ⟨String.intercalate "-" ws, ?_⟩
    rw [generate_mnemonic_eq key wl hwl, hws]
    rfl
  · intro hsome
    obtain ⟨bs, hbs⟩ := Option.isSome_iff_exists.mp hsome
    have hmem := specChars_mem _ fuel2 m 0 bs hbs
    refine ⟨String.mk (bs.map (fun b => Char.ofNat b)), ?_⟩
    rw [generate_password_eq key m fuel2, hbs]
    show some (rustFromUtf8 bs) = _
    rw [rustFromUtf8_ascii bs (fun b hb => hA b (hmem b hb))]

theorem claim_C10_witness :
    (∃ s, generate_mnemonic keyW wlW 1 1 = some (Except.ok s)) ∧
    (∃ s, generate_password keyW 1 1 = some (Except.ok s)) :=
  ⟨(claim_C10 keyW wlW wlW_length 1 1 1 1).2.2.2.1 rfl,
   (claim_C10 keyW wlW wlW_length 1 1 1 1).2.2.2.2 rfl⟩
